import Mathlib

/-!
# Verification of the spinifex-unsigned-varint codec

A shallow embedding of `src/uvarint.rs`: the `UVarInt` struct (a wrapped
`u128`, modelled as a `Nat`; every Rust `u128` value is `< 2^128` and the
theorems carry that bound where it matters), its encoder `to_bytes`, its
decoder `from_bytes`, and the helper `u128_log2`.  Byte vectors are
`List Nat` whose elements are the `u8` values (`< 256`); all machine
arithmetic is made explicit (`% 2^64` for the wrapping `usize`
subtraction, `% 256` for the `as u8` truncation).
-/

namespace Spinifex

/-- Source constant `BITS_PER_BYTE`: number of bits in a byte. -/
def BITS_PER_BYTE : Nat := 8

/-- Source constant `MAX_UVARINT_NUM_BYTES`: maximum number of bytes in a
binary representation of a `UVarInt`. -/
def MAX_UVARINT_NUM_BYTES : Nat := 9

/-- The `EncodeError` enum from the source. -/
inductive EncodeError where
  | OutOfRange
deriving DecidableEq, Repr

/-- The `DecodeError` enum from the source. -/
inductive DecodeError where
  | OutOfRange
deriving DecidableEq, Repr

/-- The `UVarInt` struct from the source: a wrapped `u128` value. -/
structure UVarInt where
  num : Nat
deriving DecidableEq, Repr

/-- Source constructor `UVarInt::new`: stores the given value unchanged. -/
def UVarInt.new (num : Nat) : UVarInt := ⟨num⟩

/-- Wrapping 64-bit subtraction.  Rust `usize` subtraction on a 64-bit
platform wraps modulo `2^64` in release builds (in debug builds the same
underflow panics; the only call site that can underflow is
`u128_log2 0`, and either behaviour falsifies the claims about the zero
value).  Both arguments are `< 2^64` at every call site. -/
def wsub64 (a b : Nat) : Nat := (a + 2 ^ 64 - b) % 2 ^ 64

/-- Rust `u128::leading_zeros`: `128` minus the bit length of `n`
(for `n < 2^128`). -/
def leadingZeros128 (n : Nat) : Nat :=
  128 - (if n = 0 then 0 else Nat.log2 n + 1)

/-- Source helper `UVarInt::u128_log2`:
`(size_of::<u128>() * BITS_PER_BYTE) - n.leading_zeros() - 1`, evaluated
in `usize` arithmetic.  For `n = 0` the subtraction underflows and wraps
to `2^64 - 1`. -/
def UVarInt.u128_log2 (n : Nat) : Nat :=
  wsub64 (wsub64 (16 * BITS_PER_BYTE) (leadingZeros128 n)) 1

/-- The encoding loop of `UVarInt::to_bytes` (`for i in 0..num_bytes`),
with the number of remaining iterations as first recursion argument.
Each iteration stores `(n | 0x80) as u8` (truncation to the low byte)
and shifts `n` right by 7; on the final iteration (`i + 1 == num_bytes`)
the stored byte is additionally masked with `0x7f` and the loop breaks. -/
def encodeLoop : Nat → Nat → List Nat
  | _, 0 => []
  | n, 1 => [((n ||| 128) % 256) &&& 127]
  | n, fuel + 2 => ((n ||| 128) % 256) :: encodeLoop (n >>> 7) (fuel + 1)

/-- Source encoder `UVarInt::to_bytes`: computes
`num_bytes = u128_log2(num) / (BITS_PER_BYTE - 1) + 1`, rejects with
`OutOfRange` when it exceeds `MAX_UVARINT_NUM_BYTES`, returns the single
byte `[num]` when `num <= i8::MAX` (127), and otherwise runs the
encoding loop for `num_bytes` iterations. -/
def UVarInt.to_bytes (v : UVarInt) : Except EncodeError (List Nat) :=
  let num_bytes : Nat := UVarInt.u128_log2 v.num / (BITS_PER_BYTE - 1) + 1
  if num_bytes > MAX_UVARINT_NUM_BYTES then
    Except.error EncodeError.OutOfRange
  else if v.num ≤ 127 then
    Except.ok [v.num]
  else
    Except.ok (encodeLoop v.num num_bytes)

/-- The scanning loop of `UVarInt::from_bytes`: starting from index `i`
and accumulator `n`, performs `n |= ((bytes[i] & 0x7f) as u128) << (i * 7)`
and, at the first byte whose `0x80` bit is clear, commits the accumulator
to `num` and breaks; if the loop ends without a break, `num` keeps its
initial value `0` (which this function returns on the `[]` case). -/
def decodeLoop : List Nat → Nat → Nat → Nat
  | [], _, _ => 0
  | b :: rest, i, n =>
    let n2 := n ||| ((b &&& 127) <<< (i * 7))
    if b &&& 128 = 0 then n2 else decodeLoop rest (i + 1) n2

/-- Source decoder `UVarInt::from_bytes`: rejects inputs longer than
`MAX_UVARINT_NUM_BYTES` before scanning, otherwise returns the value
accumulated by the scanning loop. -/
def UVarInt.from_bytes (bytes : List Nat) : Except DecodeError UVarInt :=
  if bytes.length > MAX_UVARINT_NUM_BYTES then
    Except.error DecodeError.OutOfRange
  else
    Except.ok (UVarInt.new (decodeLoop bytes 0 0))

/-- Modelled from the spec's words (for the refinement part of the
decoder-accumulation claim): scan bytes in order, accumulating
`value |= (byte & 0x7f) << (7 * index)`, stopping at the first byte whose
continuation bit (`0x80`) is clear. -/
def specAccum : List Nat → Nat → Nat → Nat
  | [], _, acc => acc
  | b :: rest, i, acc =>
    let acc2 := acc ||| ((b &&& 127) <<< (7 * i))
    if b &&& 128 = 0 then acc2 else specAccum rest (i + 1) acc2

/-! ## Bit-manipulation helper lemmas -/

/-- A value below 128 has the continuation bit clear. -/
theorem and128_of_lt (b : Nat) (hb : b < 128) : b &&& 128 = 0 := by
  apply Nat.eq_of_testBit_eq
  intro j
  have e7 : (128 : Nat) = 2 ^ 7 := by norm_num
  rw [e7, Nat.zero_testBit]
  simp only [Nat.testBit_and, Nat.testBit_two_pow]
  by_cases h : 7 = j
  · subst h
    have : Nat.testBit b 7 = false := Nat.testBit_lt_two_pow (e7 ▸ hb)
    simp [this]
  · simp [h]

/-- A value below 128 is unchanged by the 7-bit mask. -/
theorem and127_of_lt (b : Nat) (hb : b < 128) : b &&& 127 = b := by
  have e : (127 : Nat) = 2 ^ 7 - 1 := by norm_num
  have hb' : b < 2 ^ 7 := by norm_num [hb]
  rw [e]
  exact Nat.and_pow_two_sub_one_of_lt_two_pow hb'

/-- The low 7 bits of a continuation byte `(n | 0x80) as u8` are `n % 128`. -/
theorem contByte_and127 (n : Nat) : ((n ||| 128) % 256) &&& 127 = n % 128 := by
  apply Nat.eq_of_testBit_eq
  intro j
  have e8 : (256 : Nat) = 2 ^ 8 := by norm_num
  have e7 : (128 : Nat) = 2 ^ 7 := by norm_num
  have e7m : (127 : Nat) = 2 ^ 7 - 1 := by norm_num
  rw [e8, e7, e7m]
  simp only [Nat.testBit_and, Nat.testBit_mod_two_pow, Nat.testBit_or,
    Nat.testBit_two_pow, Nat.testBit_two_pow_sub_one]
  by_cases h7 : j < 7
  · have h8 : j < 8 := by omega
    have hne : ¬ (7 = j) := by omega
    simp [h7, h8, hne]
  · simp [h7]

/-- A continuation byte `(n | 0x80) as u8` has the continuation bit set. -/
theorem contByte_and128 (n : Nat) : ((n ||| 128) % 256) &&& 128 ≠ 0 := by
  intro h
  have e8 : (256 : Nat) = 2 ^ 8 := by norm_num
  have e7 : (128 : Nat) = 2 ^ 7 := by norm_num
  have h128 : Nat.testBit 128 7 = true := by
    rw [e7]
    exact Nat.testBit_two_pow_self
  have h7 : (((n ||| 128) % 256) &&& 128).testBit 7 = true := by
    rw [Nat.testBit_and, e8, Nat.testBit_mod_two_pow, Nat.testBit_or, h128]
    simp
  rw [h, Nat.zero_testBit] at h7
  exact Bool.false_ne_true h7

/-- Bitwise-or with a shifted value is addition when the low bits are free. -/
theorem lor_shiftLeft_eq_add (a b m : Nat) (ha : a < 2 ^ m) :
    a ||| b <<< m = a + b * 2 ^ m := by
  rw [Nat.shiftLeft_eq]
  calc a ||| b * 2 ^ m = 2 ^ m * b ||| a := by rw [Nat.or_comm, Nat.mul_comm]
    _ = 2 ^ m * b + a := (Nat.mul_add_lt_is_or ha b).symm
    _ = a + b * 2 ^ m := by ring

/-- Arithmetic form of the 7-bit mask, used to evaluate concrete bytes. -/
theorem and127_ground (x : Nat) : x &&& 127 = x % 128 := by
  have e : (127 : Nat) = 2 ^ 7 - 1 := by norm_num
  rw [e, Nat.and_pow_two_sub_one_eq_mod]

/-- Arithmetic form of the continuation-bit test, used to evaluate
concrete bytes. -/
theorem and128_ground (x : Nat) : x &&& 128 = x / 128 % 2 * 128 := by
  have e : (128 : Nat) = 2 ^ 7 := by norm_num
  rw [e, Nat.and_two_pow, Nat.toNat_testBit]

/-! ## Facts about `u128_log2` -/

/-- On the zero value the subtraction in `u128_log2` underflows and wraps
to `2^64 - 1` (release semantics; a debug build panics here). -/
theorem u128_log2_zero : UVarInt.u128_log2 0 = 2 ^ 64 - 1 := by
  norm_num [UVarInt.u128_log2, leadingZeros128, wsub64, BITS_PER_BYTE]

/-- On any nonzero `u128` value, `u128_log2` computes the floor base-2
logarithm. -/
theorem u128_log2_pos (n : Nat) (h1 : n ≠ 0) (h2 : n < 2 ^ 128) :
    UVarInt.u128_log2 n = Nat.log2 n := by
  have hlog : Nat.log2 n < 128 := (Nat.log2_lt h1).mpr h2
  simp only [UVarInt.u128_log2, leadingZeros128, wsub64, BITS_PER_BYTE, if_neg h1]
  norm_num
  omega

/-- Characterisation of `Nat.log2` by a power-of-two sandwich. -/
theorem log2_eq_of (n k : Nat) (h1 : 2 ^ k ≤ n) (h2 : n < 2 ^ (k + 1)) :
    Nat.log2 n = k := by
  have hne : n ≠ 0 := by
    have : 0 < 2 ^ k := Nat.pos_pow_of_pos k (by norm_num)
    omega
  have ha : Nat.log2 n < k + 1 := (Nat.log2_lt hne).mpr h2
  have hb : k ≤ Nat.log2 n := (Nat.le_log2 hne).mpr h1
  omega

/-! ## Evaluating `to_bytes` -/

/-- The zero value is rejected by the encoder: the underflowed
`u128_log2` makes `num_bytes` astronomically large. -/
theorem to_bytes_zero :
    UVarInt.to_bytes (UVarInt.new 0) = Except.error EncodeError.OutOfRange := by
  rfl

/-- Closed form of the encoder on nonzero values. -/
theorem to_bytes_eq (n : Nat) (h1 : n ≠ 0) (h2 : n < 2 ^ 128) :
    UVarInt.to_bytes (UVarInt.new n) =
      if 9 < Nat.log2 n / 7 + 1 then Except.error EncodeError.OutOfRange
      else if n ≤ 127 then Except.ok [n]
      else Except.ok (encodeLoop n (Nat.log2 n / 7 + 1)) := by
  simp only [UVarInt.to_bytes, UVarInt.new, u128_log2_pos n h1 h2,
    BITS_PER_BYTE, MAX_UVARINT_NUM_BYTES]

/-! ## The encoding loop -/

/-- The encoding loop emits exactly one byte per iteration. -/
theorem encodeLoop_length : ∀ (fuel n : Nat), (encodeLoop n fuel).length = fuel := by
  intro fuel
  induction fuel with
  | zero => intro n; rfl
  | succ k ih =>
    intro n
    cases k with
    | zero => rfl
    | succ m => simp [encodeLoop, ih]

/-- The final byte emitted by the encoding loop is the top 7-bit chunk. -/
theorem encodeLoop_getLastD : ∀ (k n d : Nat),
    (encodeLoop n (k + 1)).getLastD d = (n >>> (7 * k)) % 128 := by
  intro k
  induction k with
  | zero =>
    intro n d
    simp [encodeLoop, contByte_and127]
  | succ m ih =>
    intro n d
    show (((n ||| 128) % 256) :: encodeLoop (n >>> 7) (m + 1)).getLastD d = _
    rw [List.getLastD_cons, ih (n >>> 7) ((n ||| 128) % 256), ← Nat.shiftRight_add]
    have : 7 + 7 * m = 7 * (m + 1) := by ring
    rw [this]

/-- Decoding the output of the encoding loop recovers the value: the scan
adds each 7-bit chunk at its position on top of the accumulator. -/
theorem decodeLoop_encodeLoop : ∀ (k n i acc : Nat),
    n < 2 ^ (7 * (k + 1)) → acc < 2 ^ (i * 7) →
    decodeLoop (encodeLoop n (k + 1)) i acc = acc + n * 2 ^ (i * 7) := by
  intro k
  induction k with
  | zero =>
    intro n i acc hn hacc
    have hn' : n < 128 := by
      have : (2 : Nat) ^ (7 * (0 + 1)) = 128 := by norm_num
      omega
    have he : encodeLoop n 1 = [n] := by
      rw [show encodeLoop n 1 = [((n ||| 128) % 256) &&& 127] from rfl,
        contByte_and127, Nat.mod_eq_of_lt hn']
    rw [he]
    show (if n &&& 128 = 0 then acc ||| ((n &&& 127) <<< (i * 7))
      else decodeLoop [] (i + 1) (acc ||| ((n &&& 127) <<< (i * 7)))) = _
    rw [if_pos (and128_of_lt n hn'), and127_of_lt n hn',
      lor_shiftLeft_eq_add acc n (i * 7) hacc]
  | succ m ih =>
    intro n i acc hn hacc
    show decodeLoop (((n ||| 128) % 256) :: encodeLoop (n >>> 7) (m + 1)) i acc = _
    rw [show decodeLoop (((n ||| 128) % 256) :: encodeLoop (n >>> 7) (m + 1)) i acc
        = if ((n ||| 128) % 256) &&& 128 = 0
          then acc ||| ((((n ||| 128) % 256) &&& 127) <<< (i * 7))
          else decodeLoop (encodeLoop (n >>> 7) (m + 1)) (i + 1)
            (acc ||| ((((n ||| 128) % 256) &&& 127) <<< (i * 7))) from rfl,
      if_neg (contByte_and128 n), contByte_and127,
      lor_shiftLeft_eq_add acc (n % 128) (i * 7) hacc]
    have e : (2 : Nat) ^ ((i + 1) * 7) = 2 ^ (i * 7) * 128 := by
      have h7 : (i + 1) * 7 = i * 7 + 7 := by ring
      rw [h7, pow_add]
      norm_num
    have hlt : acc + n % 128 * 2 ^ (i * 7) < 2 ^ ((i + 1) * 7) := by
      rw [e]
      have h1 : n % 128 * 2 ^ (i * 7) ≤ 127 * 2 ^ (i * 7) :=
        Nat.mul_le_mul_right _ (by omega)
      calc acc + n % 128 * 2 ^ (i * 7)
          < 2 ^ (i * 7) + 127 * 2 ^ (i * 7) := Nat.add_lt_add_of_lt_of_le hacc h1
        _ = 2 ^ (i * 7) * 128 := by ring
    have hn7 : n >>> 7 < 2 ^ (7 * (m + 1)) := by
      have h7 : 7 * (m + 1 + 1) = 7 + 7 * (m + 1) := by ring
      rw [h7, pow_add] at hn
      rw [Nat.shiftRight_eq_div_pow]
      exact Nat.div_lt_of_lt_mul hn
    rw [ih (n >>> 7) (i + 1) _ hn7 hlt, Nat.shiftRight_eq_div_pow]
    have hd : (2 : Nat) ^ 7 = 128 := by norm_num
    rw [hd, e]
    conv_rhs => rw [← Nat.div_add_mod n 128]
    ring

/-- Decoding an encoding-loop output starting from an empty accumulator
recovers the encoded value exactly. -/
theorem decode_encode (n nb : Nat) (h1 : 1 ≤ nb) (hn : n < 2 ^ (7 * nb)) :
    decodeLoop (encodeLoop n nb) 0 0 = n := by
  obtain ⟨k, rfl⟩ : ∃ k, nb = k + 1 := ⟨nb - 1, by omega⟩
  have h := decodeLoop_encodeLoop k n 0 0 hn (by norm_num)
  simpa using h

/-! ## The scanning loop of the decoder -/

/-- If every scanned byte has the continuation bit set, the loop never
commits the accumulator and the decoded value stays `0`. -/
theorem decodeLoop_no_term : ∀ (bs : List Nat) (i acc : Nat),
    (∀ b ∈ bs, b &&& 128 ≠ 0) → decodeLoop bs i acc = 0 := by
  intro bs
  induction bs with
  | nil => intro i acc _; rfl
  | cons b rest ih =>
    intro i acc h
    show (if b &&& 128 = 0 then acc ||| ((b &&& 127) <<< (i * 7))
      else decodeLoop rest (i + 1) (acc ||| ((b &&& 127) <<< (i * 7)))) = 0
    rw [if_neg (h b (by simp))]
    exact ih _ _ (fun x hx => h x (by simp [hx]))

/-- Bytes after the first terminator have no effect on the scan. -/
theorem decodeLoop_append_term : ∀ (pre : List Nat) (t : Nat) (suf : List Nat)
    (i acc : Nat), (∀ b ∈ pre, b &&& 128 ≠ 0) → t &&& 128 = 0 →
    decodeLoop (pre ++ t :: suf) i acc = decodeLoop (pre ++ [t]) i acc := by
  intro pre
  induction pre with
  | nil =>
    intro t suf i acc _ ht
    show (if t &&& 128 = 0 then acc ||| ((t &&& 127) <<< (i * 7)) else _)
      = (if t &&& 128 = 0 then acc ||| ((t &&& 127) <<< (i * 7)) else _)
    rw [if_pos ht, if_pos ht]
  | cons b rest ih =>
    intro t suf i acc hpre ht
    have hb : b &&& 128 ≠ 0 := hpre b (by simp)
    show (if b &&& 128 = 0 then _
        else decodeLoop (rest ++ t :: suf) (i + 1) (acc ||| ((b &&& 127) <<< (i * 7))))
      = (if b &&& 128 = 0 then _
        else decodeLoop (rest ++ [t]) (i + 1) (acc ||| ((b &&& 127) <<< (i * 7))))
    rw [if_neg hb, if_neg hb]
    exact ih t suf (i + 1) _ (fun x hx => hpre x (by simp [hx])) ht

/-- On an input ending at its terminator, the scanning loop agrees with
the accumulation rule written in the spec. -/
theorem decodeLoop_eq_specAccum : ∀ (pre : List Nat) (t : Nat) (i acc : Nat),
    (∀ b ∈ pre, b &&& 128 ≠ 0) → t &&& 128 = 0 →
    decodeLoop (pre ++ [t]) i acc = specAccum (pre ++ [t]) i acc := by
  intro pre
  induction pre with
  | nil =>
    intro t i acc _ ht
    show (if t &&& 128 = 0 then acc ||| ((t &&& 127) <<< (i * 7)) else _)
      = (if t &&& 128 = 0 then acc ||| ((t &&& 127) <<< (7 * i)) else _)
    rw [if_pos ht, if_pos ht, Nat.mul_comm i 7]
  | cons b rest ih =>
    intro t i acc hpre ht
    have hb : b &&& 128 ≠ 0 := hpre b (by simp)
    show (if b &&& 128 = 0 then _
        else decodeLoop (rest ++ [t]) (i + 1) (acc ||| ((b &&& 127) <<< (i * 7))))
      = (if b &&& 128 = 0 then _
        else specAccum (rest ++ [t]) (i + 1) (acc ||| ((b &&& 127) <<< (7 * i))))
    rw [if_neg hb, if_neg hb, Nat.mul_comm i 7]
    exact ih t (i + 1) _ (fun x hx => hpre x (by simp [hx])) ht

/-- The scanning loop keeps the accumulated value below the payload bound
of the bytes it can still scan. -/
theorem decodeLoop_lt : ∀ (bs : List Nat) (i acc : Nat), acc < 2 ^ (i * 7) →
    decodeLoop bs i acc < 2 ^ ((i + bs.length) * 7) := by
  intro bs
  induction bs with
  | nil =>
    intro i acc _
    exact Nat.pos_pow_of_pos _ (by norm_num)
  | cons b rest ih =>
    intro i acc hacc
    have hn2 : acc ||| ((b &&& 127) <<< (i * 7)) < 2 ^ ((i + 1) * 7) := by
      have e : (2 : Nat) ^ ((i + 1) * 7) = 2 ^ (i * 7) * 128 := by
        have h7 : (i + 1) * 7 = i * 7 + 7 := by ring
        rw [h7, pow_add]
        norm_num
      apply Nat.or_lt_two_pow
      · calc acc < 2 ^ (i * 7) := hacc
          _ ≤ 2 ^ ((i + 1) * 7) := Nat.pow_le_pow_right (by norm_num) (by omega)
      · rw [Nat.shiftLeft_eq, e]
        have h1 : (b &&& 127) * 2 ^ (i * 7) ≤ 127 * 2 ^ (i * 7) :=
          Nat.mul_le_mul_right _ (Nat.and_le_right)
        have h2 : (127 : Nat) * 2 ^ (i * 7) < 128 * 2 ^ (i * 7) :=
          (Nat.mul_lt_mul_right (Nat.pos_pow_of_pos _ (by norm_num))).mpr (by norm_num)
        calc (b &&& 127) * 2 ^ (i * 7) ≤ 127 * 2 ^ (i * 7) := h1
          _ < 128 * 2 ^ (i * 7) := h2
          _ = 2 ^ (i * 7) * 128 := by ring
    show (if b &&& 128 = 0 then acc ||| ((b &&& 127) <<< (i * 7))
      else decodeLoop rest (i + 1) (acc ||| ((b &&& 127) <<< (i * 7))))
      < 2 ^ ((i + (b :: rest).length) * 7)
    have hlen : (b :: rest).length = rest.length + 1 := rfl
    by_cases hb : b &&& 128 = 0
    · rw [if_pos hb]
      calc acc ||| ((b &&& 127) <<< (i * 7)) < 2 ^ ((i + 1) * 7) := hn2
        _ ≤ 2 ^ ((i + (b :: rest).length) * 7) := by
          apply Nat.pow_le_pow_right (by norm_num)
          have : (i + 1) ≤ i + (b :: rest).length := by rw [hlen]; omega
          exact Nat.mul_le_mul_right 7 this
    · rw [if_neg hb]
      have h := ih (i + 1) _ hn2
      have e : i + 1 + rest.length = i + (b :: rest).length := by
        rw [hlen]
        omega
      rw [e] at h
      exact h

/-! ## The round trip on nonzero encodable values -/

/-- Every nonzero value below `2^63` encodes successfully and decodes back
to itself. -/
theorem roundtrip_pos (n : Nat) (h1 : n ≠ 0) (h63 : n < 2 ^ 63) :
    ∃ bs, UVarInt.to_bytes (UVarInt.new n) = Except.ok bs ∧
      UVarInt.from_bytes bs = Except.ok (UVarInt.new n) := by
  have h2 : n < 2 ^ 128 := lt_trans h63 (by norm_num)
  have hlog : Nat.log2 n < 63 := (Nat.log2_lt h1).mpr h63
  have hnb9 : ¬ (9 < Nat.log2 n / 7 + 1) := by omega
  rw [to_bytes_eq n h1 h2, if_neg hnb9]
  by_cases h127 : n ≤ 127
  · refine ⟨[n], by rw [if_pos h127], ?_⟩
    have hb : n < 128 := by omega
    show (if ([n] : List Nat).length > MAX_UVARINT_NUM_BYTES then _
      else Except.ok (UVarInt.new (decodeLoop [n] 0 0))) = _
    rw [if_neg (by simp [MAX_UVARINT_NUM_BYTES])]
    have hd : decodeLoop [n] 0 0 = n := by
      show (if n &&& 128 = 0 then 0 ||| ((n &&& 127) <<< (0 * 7))
        else decodeLoop [] (0 + 1) (0 ||| ((n &&& 127) <<< (0 * 7)))) = n
      rw [if_pos (and128_of_lt n hb), and127_of_lt n hb]
      simp
    rw [hd]
  · refine ⟨encodeLoop n (Nat.log2 n / 7 + 1), by rw [if_neg h127], ?_⟩
    have hlen : (encodeLoop n (Nat.log2 n / 7 + 1)).length = Nat.log2 n / 7 + 1 :=
      encodeLoop_length _ n
    show (if (encodeLoop n (Nat.log2 n / 7 + 1)).length > MAX_UVARINT_NUM_BYTES then _
      else Except.ok (UVarInt.new (decodeLoop (encodeLoop n (Nat.log2 n / 7 + 1)) 0 0))) = _
    rw [if_neg (by rw [hlen]; simp [MAX_UVARINT_NUM_BYTES]; omega)]
    have hb1 : Nat.log2 n + 1 ≤ 7 * (Nat.log2 n / 7 + 1) := by omega
    have hbound : n < 2 ^ (7 * (Nat.log2 n / 7 + 1)) :=
      lt_of_lt_of_le Nat.lt_log2_self (Nat.pow_le_pow_right (by norm_num) hb1)
    rw [decode_encode n (Nat.log2 n / 7 + 1) (by omega) hbound]

/-! ## Shape of successful encoder results -/

/-- A successful encoding comes from a nonzero value and is either the
single-byte fast path or an encoding-loop output. -/
theorem to_bytes_ok_elim (n : Nat) (bs : List Nat) (h2 : n < 2 ^ 128)
    (h : UVarInt.to_bytes (UVarInt.new n) = Except.ok bs) :
    n ≠ 0 ∧ Nat.log2 n / 7 + 1 ≤ 9 ∧
      ((n ≤ 127 ∧ bs = [n]) ∨
        (127 < n ∧ bs = encodeLoop n (Nat.log2 n / 7 + 1))) := by
  rcases eq_or_ne n 0 with rfl | h1
  · rw [to_bytes_zero] at h
    exact absurd h (by simp)
  · rw [to_bytes_eq n h1 h2] at h
    by_cases h9 : 9 < Nat.log2 n / 7 + 1
    · rw [if_pos h9] at h
      exact absurd h (by simp)
    · rw [if_neg h9] at h
      refine ⟨h1, by omega, ?_⟩
      by_cases h127 : n ≤ 127
      · rw [if_pos h127] at h
        exact Or.inl ⟨h127, (Except.ok.inj h).symm⟩
      · rw [if_neg h127] at h
        exact Or.inr ⟨by omega, (Except.ok.inj h).symm⟩

/-- The length of every successful encoding is `log2(n) / 7 + 1`. -/
theorem to_bytes_ok_length (n : Nat) (bs : List Nat) (h2 : n < 2 ^ 128)
    (h : UVarInt.to_bytes (UVarInt.new n) = Except.ok bs) :
    bs.length = Nat.log2 n / 7 + 1 := by
  obtain ⟨h1, _, hc⟩ := to_bytes_ok_elim n bs h2 h
  rcases hc with ⟨h127, rfl⟩ | ⟨_, rfl⟩
  · have : Nat.log2 n < 7 := (Nat.log2_lt h1).mpr (by omega)
    show 1 = Nat.log2 n / 7 + 1
    omega
  · exact encodeLoop_length _ n

/-! ## Concrete evaluations of the codec -/

/-- Evaluation: the value 1 encodes to the single byte `[1]`. -/
theorem to_bytes_one : UVarInt.to_bytes (UVarInt.new 1) = Except.ok [1] := by
  rw [to_bytes_eq 1 (by norm_num) (by norm_num),
    log2_eq_of 1 0 (by norm_num) (by norm_num)]
  norm_num

/-- Evaluation: the value 127 encodes to the single byte `[127]`. -/
theorem to_bytes_127 : UVarInt.to_bytes (UVarInt.new 127) = Except.ok [127] := by
  rw [to_bytes_eq 127 (by norm_num) (by norm_num),
    log2_eq_of 127 6 (by norm_num) (by norm_num)]
  norm_num

/-- Evaluation: the value 128 encodes to `[0x80, 0x01]`. -/
theorem to_bytes_128 : UVarInt.to_bytes (UVarInt.new 128) = Except.ok [128, 1] := by
  rw [to_bytes_eq 128 (by norm_num) (by norm_num),
    log2_eq_of 128 7 (by norm_num) (by norm_num)]
  simp [encodeLoop, and127_ground]

/-- Evaluation: the value 255 encodes to `[255, 1]`. -/
theorem to_bytes_255 : UVarInt.to_bytes (UVarInt.new 255) = Except.ok [255, 1] := by
  rw [to_bytes_eq 255 (by norm_num) (by norm_num),
    log2_eq_of 255 7 (by norm_num) (by norm_num)]
  simp [encodeLoop, and127_ground]

/-- Evaluation: the value 300 encodes to `[172, 2]`. -/
theorem to_bytes_300 : UVarInt.to_bytes (UVarInt.new 300) = Except.ok [172, 2] := by
  rw [to_bytes_eq 300 (by norm_num) (by norm_num),
    log2_eq_of 300 8 (by norm_num) (by norm_num)]
  simp [encodeLoop, and127_ground]

/-- Evaluation: the value 16384 encodes to `[0x80, 0x80, 0x01]`. -/
theorem to_bytes_16384 :
    UVarInt.to_bytes (UVarInt.new 16384) = Except.ok [128, 128, 1] := by
  rw [to_bytes_eq 16384 (by norm_num) (by norm_num),
    log2_eq_of 16384 14 (by norm_num) (by norm_num)]
  simp [encodeLoop, and127_ground]

/-- Evaluation: the bytes `[172, 2]` decode to the value 300. -/
theorem from_bytes_172_2 :
    UVarInt.from_bytes [172, 2] = Except.ok (UVarInt.new 300) := by
  simp [UVarInt.from_bytes, decodeLoop, MAX_UVARINT_NUM_BYTES, UVarInt.new,
    and127_ground, and128_ground]

/-! ## Claim theorems -/

/-- Claim C1 (code bug at the zero value): the claim asserts the
encode-decode round trip is the identity for every `n < 2^63`, including
`n = 0`; in the code the zero value fails to encode (the `u128_log2`
underflow makes the encoder return `OutOfRange`), while for every nonzero
`n < 2^63` the round trip does return the original value. -/
theorem encode_decode_roundtrip :
    UVarInt.to_bytes (UVarInt.new 0) = Except.error EncodeError.OutOfRange ∧
    ∀ n : Nat, 1 ≤ n → n < 2 ^ 63 →
      ∃ bs, UVarInt.to_bytes (UVarInt.new n) = Except.ok bs ∧
        UVarInt.from_bytes bs = Except.ok (UVarInt.new n) :=
  ⟨to_bytes_zero, fun n h1 h63 => roundtrip_pos n (by omega) h63⟩

/-- Witness for C1 at the concrete value 300. -/
theorem encode_decode_roundtrip_witness :
    ∃ bs, UVarInt.to_bytes (UVarInt.new 300) = Except.ok bs ∧
      UVarInt.from_bytes bs = Except.ok (UVarInt.new 300) :=
  encode_decode_roundtrip.2 300 (by norm_num) (by norm_num)

/-- Claim C2 (code bug): the claim says `to_bytes` on the zero value
returns `Ok([0x00])`; in the code `u128_log2 0` underflows, `num_bytes`
becomes `(2^64 - 1) / 7 + 1 > 9`, and the encoder rejects the zero value
with `OutOfRange` instead. -/
theorem zero_encoding_code_bug :
    UVarInt.to_bytes (UVarInt.new 0) = Except.error EncodeError.OutOfRange :=
  to_bytes_zero

/-- Claim C3 counterexample: at `n = 127` the encoding has 1 byte, but the
claimed formula `floor(bit_length(n) / 7) + 1` (with `bit_length(127) = 7`,
i.e. `Nat.log2 127 + 1`) yields 2. -/
theorem num_bytes_formula_counterexample :
    UVarInt.to_bytes (UVarInt.new 127) = Except.ok [127] ∧
    ([127] : List Nat).length ≠ (Nat.log2 127 + 1) / 7 + 1 := by
  have hl : Nat.log2 127 = 6 := log2_eq_of 127 6 (by norm_num) (by norm_num)
  exact ⟨to_bytes_127, by rw [hl]; norm_num⟩

/-- Claim C3 as amended: for every value on which `to_bytes` succeeds, the
number of bytes equals `floor((bit_length(n) - 1) / 7) + 1`, that is,
`floor(log2(n) / 7) + 1`. -/
theorem num_bytes_formula_amended (n : Nat) (bs : List Nat) (h2 : n < 2 ^ 128)
    (h : UVarInt.to_bytes (UVarInt.new n) = Except.ok bs) :
    bs.length = Nat.log2 n / 7 + 1 :=
  to_bytes_ok_length n bs h2 h

/-- Witness for the amended C3 at the concrete value 300. -/
theorem num_bytes_formula_amended_witness :
    ([172, 2] : List Nat).length = Nat.log2 300 / 7 + 1 :=
  num_bytes_formula_amended 300 [172, 2] (by norm_num) to_bytes_300

/-- Claim C4: the encoder reproduces all literal byte vectors of the spec
exactly. -/
theorem to_bytes_literal_vectors :
    UVarInt.to_bytes (UVarInt.new 1) = Except.ok [1] ∧
    UVarInt.to_bytes (UVarInt.new 127) = Except.ok [127] ∧
    UVarInt.to_bytes (UVarInt.new 128) = Except.ok [128, 1] ∧
    UVarInt.to_bytes (UVarInt.new 255) = Except.ok [255, 1] ∧
    UVarInt.to_bytes (UVarInt.new 300) = Except.ok [172, 2] ∧
    UVarInt.to_bytes (UVarInt.new 16384) = Except.ok [128, 128, 1] :=
  ⟨to_bytes_one, to_bytes_127, to_bytes_128, to_bytes_255, to_bytes_300,
    to_bytes_16384⟩

/-- Claim C5 (code bug at the zero value): the claim says the encoder
fails exactly on values `≥ 2^63`; in the code the zero value is rejected
as well, while on nonzero `u128` values rejection is indeed equivalent to
`2^63 ≤ n`. -/
theorem encode_out_of_range_iff :
    UVarInt.to_bytes (UVarInt.new 0) = Except.error EncodeError.OutOfRange ∧
    ∀ n : Nat, 1 ≤ n → n < 2 ^ 128 →
      (UVarInt.to_bytes (UVarInt.new n) = Except.error EncodeError.OutOfRange
        ↔ 2 ^ 63 ≤ n) := by
  refine ⟨to_bytes_zero, fun n h1 h2 => ?_⟩
  rw [to_bytes_eq n (by omega) h2]
  by_cases h9 : 9 < Nat.log2 n / 7 + 1
  · rw [if_pos h9]
    have h63 : 63 ≤ Nat.log2 n := by omega
    have hge : 2 ^ 63 ≤ n :=
      le_trans (Nat.pow_le_pow_right (by norm_num) h63) (Nat.log2_self_le (by omega))
    exact ⟨fun _ => hge, fun _ => rfl⟩
  · rw [if_neg h9]
    have hlt : n < 2 ^ 63 := (Nat.log2_lt (by omega)).mp (by omega)
    constructor
    · intro hcon
      by_cases h127 : n ≤ 127
      · rw [if_pos h127] at hcon
        exact absurd hcon (by simp)
      · rw [if_neg h127] at hcon
        exact absurd hcon (by simp)
    · intro hge
      exact absurd hge (not_le.mpr hlt)

/-- Witness for C5 at the concrete value `2^63`, the smallest rejected
nonzero value. -/
theorem encode_out_of_range_iff_witness :
    UVarInt.to_bytes (UVarInt.new (2 ^ 63)) = Except.error EncodeError.OutOfRange :=
  (encode_out_of_range_iff.2 (2 ^ 63) (by norm_num) (by norm_num)).mpr
    (by norm_num)

/-- Claim C6: every successful encoding is minimal — it fits in any byte
count that can represent the value, and when more than one byte is
emitted the final byte carries a nonzero 7-bit chunk. -/
theorem to_bytes_minimal (n : Nat) (bs : List Nat) (h2 : n < 2 ^ 128)
    (h : UVarInt.to_bytes (UVarInt.new n) = Except.ok bs) :
    (∀ k : Nat, 1 ≤ k → n < 2 ^ (7 * k) → bs.length ≤ k) ∧
    (1 < bs.length → bs.getLastD 0 &&& 127 ≠ 0) := by
  obtain ⟨h1, h9, hc⟩ := to_bytes_ok_elim n bs h2 h
  have hlen : bs.length = Nat.log2 n / 7 + 1 := to_bytes_ok_length n bs h2 h
  constructor
  · intro k _ hk
    have : Nat.log2 n < 7 * k := (Nat.log2_lt h1).mpr hk
    omega
  · intro hbs
    rcases hc with ⟨h127, rfl⟩ | ⟨h127, rfl⟩
    · simp at hbs
    · have hgl : (encodeLoop n (Nat.log2 n / 7 + 1)).getLastD 0
          = (n >>> (7 * (Nat.log2 n / 7))) % 128 :=
        encodeLoop_getLastD (Nat.log2 n / 7) n 0
      rw [hgl]
      have h7q : 7 * (Nat.log2 n / 7) ≤ Nat.log2 n := by omega
      have hpos : 1 ≤ n >>> (7 * (Nat.log2 n / 7)) := by
        rw [Nat.shiftRight_eq_div_pow]
        have hle : 2 ^ (7 * (Nat.log2 n / 7)) ≤ n :=
          le_trans (Nat.pow_le_pow_right (by norm_num) h7q) (Nat.log2_self_le h1)
        exact (Nat.one_le_div_iff (Nat.pos_pow_of_pos _ (by norm_num))).mpr hle
      have hlt : n >>> (7 * (Nat.log2 n / 7)) < 128 := by
        rw [Nat.shiftRight_eq_div_pow]
        apply Nat.div_lt_of_lt_mul
        have hstep : Nat.log2 n + 1 ≤ 7 * (Nat.log2 n / 7) + 7 := by omega
        calc n < 2 ^ (Nat.log2 n + 1) := Nat.lt_log2_self
          _ ≤ 2 ^ (7 * (Nat.log2 n / 7) + 7) :=
            Nat.pow_le_pow_right (by norm_num) hstep
          _ = 2 ^ (7 * (Nat.log2 n / 7)) * 128 := by rw [pow_add]; norm_num
      rw [Nat.mod_eq_of_lt hlt, and127_of_lt _ hlt]
      omega

/-- Witness for C6 at the concrete value 300 with its encoding. -/
theorem to_bytes_minimal_witness :
    (∀ k : Nat, 1 ≤ k → 300 < 2 ^ (7 * k) → ([172, 2] : List Nat).length ≤ k) ∧
    (1 < ([172, 2] : List Nat).length → ([172, 2] : List Nat).getLastD 0 &&& 127 ≠ 0) :=
  to_bytes_minimal 300 [172, 2] (by norm_num) to_bytes_300

/-- Claim C7: an input of at most 9 bytes in which every byte has the
continuation bit set (including the empty input) decodes to the zero
value instead of an error. -/
theorem from_bytes_no_terminator (bs : List Nat) (hlen : bs.length ≤ 9)
    (h : ∀ b ∈ bs, b &&& 128 ≠ 0) :
    UVarInt.from_bytes bs = Except.ok (UVarInt.new 0) := by
  show (if bs.length > MAX_UVARINT_NUM_BYTES then _ else _) = _
  rw [if_neg (by simp only [MAX_UVARINT_NUM_BYTES]; omega),
    decodeLoop_no_term bs 0 0 h]

/-- Witness for C7 on the concrete non-terminated input `[200, 129]`. -/
theorem from_bytes_no_terminator_witness :
    UVarInt.from_bytes [200, 129] = Except.ok (UVarInt.new 0) :=
  from_bytes_no_terminator [200, 129] (by simp) (by simp [and128_ground])

/-- Claim C8: the decoder accumulates `value |= (byte & 0x7f) << (7*i)`
up to and including the first terminator byte (matching the spec's
accumulation rule), and bytes after the terminator have no effect. -/
theorem from_bytes_terminator_scan (pre : List Nat) (t : Nat)
    (suf1 suf2 : List Nat) (hpre : ∀ b ∈ pre, b &&& 128 ≠ 0)
    (ht : t &&& 128 = 0) (h1 : (pre ++ t :: suf1).length ≤ 9)
    (h2 : (pre ++ t :: suf2).length ≤ 9) :
    UVarInt.from_bytes (pre ++ t :: suf1)
        = Except.ok (UVarInt.new (specAccum (pre ++ [t]) 0 0)) ∧
      UVarInt.from_bytes (pre ++ t :: suf1)
        = UVarInt.from_bytes (pre ++ t :: suf2) := by
  have e1 : UVarInt.from_bytes (pre ++ t :: suf1)
      = Except.ok (UVarInt.new (decodeLoop (pre ++ [t]) 0 0)) := by
    show (if (pre ++ t :: suf1).length > MAX_UVARINT_NUM_BYTES then _ else _) = _
    rw [if_neg (by simp only [MAX_UVARINT_NUM_BYTES]; omega),
      decodeLoop_append_term pre t suf1 0 0 hpre ht]
  have e2 : UVarInt.from_bytes (pre ++ t :: suf2)
      = Except.ok (UVarInt.new (decodeLoop (pre ++ [t]) 0 0)) := by
    show (if (pre ++ t :: suf2).length > MAX_UVARINT_NUM_BYTES then _ else _) = _
    rw [if_neg (by simp only [MAX_UVARINT_NUM_BYTES]; omega),
      decodeLoop_append_term pre t suf2 0 0 hpre ht]
  refine ⟨?_, by rw [e1, e2]⟩
  rw [e1, decodeLoop_eq_specAccum pre t 0 0 hpre ht]

/-- Witness for C8 on a concrete input with trailing bytes after the
terminator. -/
theorem from_bytes_terminator_scan_witness :
    UVarInt.from_bytes [129, 2, 99]
        = Except.ok (UVarInt.new (specAccum [129, 2] 0 0)) ∧
      UVarInt.from_bytes [129, 2, 99] = UVarInt.from_bytes [129, 2] :=
  from_bytes_terminator_scan [129] 2 [99] [] (by simp [and128_ground])
    (by simp [and128_ground]) (by simp) (by simp)

/-- Claim C9: the decoder fails with `OutOfRange` exactly on inputs longer
than 9 bytes, and every input of at most 9 bytes decodes successfully. -/
theorem from_bytes_out_of_range_iff (bs : List Nat) :
    (UVarInt.from_bytes bs = Except.error DecodeError.OutOfRange
      ↔ 9 < bs.length) ∧
    (bs.length ≤ 9 → ∃ v, UVarInt.from_bytes bs = Except.ok v) := by
  constructor
  · constructor
    · intro h
      by_contra hlen
      have he : UVarInt.from_bytes bs
          = Except.ok (UVarInt.new (decodeLoop bs 0 0)) := by
        show (if bs.length > MAX_UVARINT_NUM_BYTES then _ else _) = _
        rw [if_neg (by simp only [MAX_UVARINT_NUM_BYTES]; omega)]
      rw [he] at h
      exact absurd h (by simp)
    · intro hlen
      show (if bs.length > MAX_UVARINT_NUM_BYTES then _ else _) = _
      rw [if_pos (by simp only [MAX_UVARINT_NUM_BYTES]; omega)]
  · intro hlen
    refine ⟨UVarInt.new (decodeLoop bs 0 0), ?_⟩
    show (if bs.length > MAX_UVARINT_NUM_BYTES then _ else _) = _
    rw [if_neg (by simp only [MAX_UVARINT_NUM_BYTES]; omega)]

/-- Witness for C9 on the concrete input `[172, 2]`. -/
theorem from_bytes_out_of_range_iff_witness :
    ∃ v, UVarInt.from_bytes [172, 2] = Except.ok v :=
  (from_bytes_out_of_range_iff [172, 2]).2 (by simp)

/-- Claim C10: every successfully decoded value is below `2^63`: at most
9 bytes each contribute 7 payload bits. -/
theorem from_bytes_value_bound (bs : List Nat) (v : UVarInt)
    (h : UVarInt.from_bytes bs = Except.ok v) : v.num < 2 ^ 63 := by
  by_cases hlen : bs.length > MAX_UVARINT_NUM_BYTES
  · have he : UVarInt.from_bytes bs = Except.error DecodeError.OutOfRange := by
      show (if bs.length > MAX_UVARINT_NUM_BYTES then _ else _) = _
      rw [if_pos hlen]
    rw [he] at h
    exact absurd h (by simp)
  · have he : UVarInt.from_bytes bs
        = Except.ok (UVarInt.new (decodeLoop bs 0 0)) := by
      show (if bs.length > MAX_UVARINT_NUM_BYTES then _ else _) = _
      rw [if_neg hlen]
    rw [he] at h
    have hv : UVarInt.new (decodeLoop bs 0 0) = v := Except.ok.inj h
    rw [← hv]
    have hlen9 : bs.length ≤ 9 := by
      simp only [MAX_UVARINT_NUM_BYTES] at hlen
      omega
    calc (UVarInt.new (decodeLoop bs 0 0)).num
        = decodeLoop bs 0 0 := rfl
      _ < 2 ^ ((0 + bs.length) * 7) := decodeLoop_lt bs 0 0 (by norm_num)
      _ ≤ 2 ^ 63 := Nat.pow_le_pow_right (by norm_num) (by omega)

/-- Witness for C10 on the concrete decode of `[172, 2]`. -/
theorem from_bytes_value_bound_witness : (UVarInt.new 300).num < 2 ^ 63 :=
  from_bytes_value_bound [172, 2] (UVarInt.new 300) from_bytes_172_2

end Spinifex
